import Mathlib

/-!
Verification of the file-to-json chunking pipeline (src/h.py).

The source program has two pieces of core logic:
* `chunk_text` (h.py lines 12-30): a word-aware sliding-window chunker with
  overlap, implemented as a `while start < len(words)` loop that advances
  `start` by `chunk_size - overlap` each iteration;
* the document-record construction inside `file_to_json` (h.py lines 105-117),
  which turns the chunk list into records with ids, indices and word counts.

Python string helpers (`str.split()`, `str.strip()`, `" ".join`) are embedded
as executable functions on `List Char` / `String`.  The `while` loop is
embedded as a fuel-indexed recursion returning `Option (List String)`:
`none` means the fuel was exhausted while the loop guard was still true.
Since the guard `start < len(words)` can only be falsified when
`chunk_size - overlap ≥ 1`, a fuel of `len(words)` is always sufficient for
terminating runs, and `none` for every fuel models genuine non-termination
(which the source exhibits when `overlap ≥ chunk_size`).
-/

/-- Python `str.split()` worker: scan the characters, accumulating the current
word in `acc` (reversed); whitespace flushes the accumulator, and empty words
are never produced.  This is Python's no-argument `split`, which splits on any
run of whitespace and ignores leading/trailing whitespace. -/
def splitWordsAux : List Char → List Char → List (List Char)
  | [], acc => if acc = [] then [] else [acc.reverse]
  | c :: cs, acc =>
    if c.isWhitespace then
      if acc = [] then splitWordsAux cs []
      else acc.reverse :: splitWordsAux cs []
    else splitWordsAux cs (c :: acc)

/-- Python `text.split()` : the whitespace-separated words of `s`. -/
def splitWords (s : String) : List String :=
  (splitWordsAux s.data []).map (fun l => String.mk l)

/-- Python `text.strip()` : remove leading and trailing whitespace. -/
def pyStrip (s : String) : String :=
  String.mk (((s.data.dropWhile Char.isWhitespace).reverse.dropWhile Char.isWhitespace).reverse)

/-- Python `" ".join(ws)` at the character level: interpose a single space
between consecutive words. -/
def joinChars : List (List Char) → List Char
  | [] => []
  | [w] => w
  | w :: ws => w ++ ' ' :: joinChars ws

/-- Python `" ".join(ws)` on strings. -/
def joinWords (ws : List String) : String :=
  String.mk (joinChars (ws.map String.data))

/-- Effective index of the Python slice bound `i` for a list of length `n`:
negative bounds count from the end (clamped at 0), non-negative bounds are
clamped at `n`. -/
def pyIdx (n : Nat) (i : Int) : Nat :=
  if i < 0 then n - (-i).toNat else min i.toNat n

/-- Python slice `l[a:b]`. -/
def pySlice {α : Type} (l : List α) (a b : Int) : List α :=
  (l.take (pyIdx l.length b)).drop (pyIdx l.length a)

/-- The `while start < len(words)` loop of `chunk_text` (h.py lines 24-28),
with explicit fuel.  `start` is an `Int`, as in Python: when
`overlap > chunk_size` the source's `start` becomes negative.  Each iteration
computes `end = min(start + chunk_size, len(words))`, emits
`" ".join(words[start:end])`, and advances `start` by `chunk_size - overlap`.
`none` means the fuel ran out with the loop guard still true. -/
def chunkLoopF (words : List String) (chunk_size overlap : Nat) :
    Nat → Int → Option (List String)
  | 0, start => if start < (words.length : Int) then none else some []
  | fuel + 1, start =>
    if start < (words.length : Int) then
      (chunkLoopF words chunk_size overlap fuel
          (start + ((chunk_size : Int) - (overlap : Int)))).map
        (fun rest =>
          joinWords (pySlice words start
            (min (start + (chunk_size : Int)) (words.length : Int))) :: rest)
    else some []

/-- `chunk_text` (h.py lines 12-30): return `[]` for whitespace-only input,
otherwise run the sliding-window loop on the word list.  The fuel
`(splitWords text).length` is sufficient whenever `overlap < chunk_size`
(the loop then runs at most once per word), so `none` is returned exactly
when the source loop would never terminate.  The source defaults are
`chunk_size = 650`, `overlap = 130`. -/
def chunk_text (text : String) (chunk_size overlap : Nat) : Option (List String) :=
  if pyStrip text = "" then some []
  else chunkLoopF (splitWords text) chunk_size overlap (splitWords text).length 0

/-- Metadata attached to each chunk record (h.py lines 109-115). -/
structure Metadata where
  source : String
  file_type : String
  chunk_index : Nat
  total_chunks : Nat
  chunk_size_words_approx : Nat
deriving DecidableEq

/-- One element of the output JSON array (h.py lines 106-116). -/
structure ChunkRecord where
  id : String
  text_content : String
  metadata : Metadata
deriving DecidableEq

/-- Python `f"{i:04d}"` for a natural number: the decimal representation,
left-padded with zeros to width 4. -/
def zeroPad4 (i : Nat) : String :=
  String.mk (List.replicate (4 - (Nat.repr i).length) '0' ++ (Nat.repr i).data)

/-- The record-building loop of `file_to_json` (h.py lines 105-117):
`for i, chunk in enumerate(chunks, 1)` builds one record per chunk with a
1-based zero-padded id, the chunk text, and positional metadata.  The spec
calls this component `DocumentBuilder.build`. -/
def buildRecords (chunks : List String) (source_name file_type : String) :
    List ChunkRecord :=
  chunks.enum.map (fun p =>
    { id := "chunk_" ++ source_name ++ "_" ++ zeroPad4 (p.1 + 1)
      text_content := p.2
      metadata :=
        { source := source_name
          file_type := file_type
          chunk_index := p.1 + 1
          total_chunks := chunks.length
          chunk_size_words_approx := (splitWords p.2).length } })

/-!
## Specification-side definitions

`specWindows` is written from the spec's words (§4.1): window `i` (0-based)
starts at `start_i = i * (chunk_size - overlap)`, ends at
`min(start_i + chunk_size, N)`, a window is produced for every `start_i < N`
(equivalently, for every `i < ⌈N / (chunk_size - overlap)⌉`), and each chunk
is the single-space join of its word window.
-/

/-- Ceiling division `⌈m / step⌉` for positive `step`, written
`(m + step - 1) / step`. -/
def iterCount (step m : Nat) : Nat := (m + step - 1) / step

/-- The word window starting at index `s` : `words[s : min(s + cs, N)]`. -/
def windowAt (words : List String) (cs s : Nat) : List String :=
  (words.take (min (s + cs) words.length)).drop s

/-- The chunk sequence described by the spec (§4.1). -/
def specWindows (words : List String) (cs ov : Nat) : List String :=
  (List.range (iterCount (cs - ov) words.length)).map
    (fun i => joinWords (windowAt words cs (i * (cs - ov))))

/-- `Nat`-indexed restatement of the source loop `chunkLoopF`: whenever
`overlap < chunk_size` the loop's `start` stays non-negative, and the two
agree (`chunkLoopF_eq_chunkRunN`). -/
def chunkRunN (words : List String) (cs ov : Nat) : Nat → Nat → Option (List String)
  | 0, start => if start < words.length then none else some []
  | fuel + 1, start =>
    if start < words.length then
      (chunkRunN words cs ov fuel (start + (cs - ov))).map
        (fun rest => joinWords (windowAt words cs start) :: rest)
    else some []

/-! ## Arithmetic lemmas about `iterCount` -/

lemma iterCount_zero (step : Nat) (h : 1 ≤ step) : iterCount step 0 = 0 := by
  unfold iterCount
  exact Nat.div_eq_of_lt (by omega)

lemma lt_iterCount_iff (step m i : Nat) (h : 1 ≤ step) :
    i < iterCount step m ↔ i * step < m := by
  unfold iterCount
  rw [show i < (m + step - 1) / step ↔ i + 1 ≤ (m + step - 1) / step from Iff.rfl,
    Nat.le_div_iff_mul_le h, Nat.add_mul, Nat.one_mul]
  omega

lemma iterCount_succ (step m : Nat) (h : 1 ≤ step) (hm : 1 ≤ m) :
    iterCount step m = iterCount step (m - step) + 1 := by
  unfold iterCount
  rcases le_or_lt m step with hle | hlt
  · have h1 : m - step = 0 := by omega
    have h2 : (0 + step - 1) / step = 0 := Nat.div_eq_of_lt (by omega)
    have h3 : m + step - 1 = (m - 1) + step := by omega
    have h4 : (m - 1) / step = 0 := Nat.div_eq_of_lt (by omega)
    rw [h1, h2, h3, Nat.add_div_right _ (by omega), h4]
  · have h3 : m + step - 1 = (m - 1) + step := by omega
    have h4 : m - step + step - 1 = (m - 1 - step) + step := by omega
    have h5 : m - 1 = (m - 1 - step) + step := by omega
    rw [h3, Nat.add_div_right _ (by omega), h4, Nat.add_div_right _ (by omega)]
    have h6 : (m - 1) / step = (m - 1 - step) / step + 1 := by
      conv_lhs => rw [h5]
      rw [Nat.add_div_right _ (by omega)]
    omega

lemma iterCount_mul_ge (step m : Nat) (h : 1 ≤ step) : m ≤ iterCount step m * step := by
  by_contra hc
  push_neg at hc
  have := (lt_iterCount_iff step m (iterCount step m) h).mpr hc
  omega

lemma iterCount_pred_mul_lt (step m : Nat) (h : 1 ≤ step) (hm : 0 < m) :
    (iterCount step m - 1) * step < m := by
  have h0 : 0 < iterCount step m :=
    (lt_iterCount_iff step m 0 h).mpr (by omega)
  exact (lt_iterCount_iff step m (iterCount step m - 1) h).mp (by omega)

/-! ## Word-level lemmas: `splitWords`, `pyStrip`, `joinWords` -/

lemma splitWordsAux_all_ws (l : List Char) (h : ∀ c ∈ l, c.isWhitespace = true) :
    splitWordsAux l [] = [] := by
  induction l with
  | nil => simp [splitWordsAux]
  | cons c cs ih =>
    have hc : c.isWhitespace = true := h c (List.mem_cons_self c cs)
    simp only [splitWordsAux, hc, if_true, if_pos rfl]
    exact ih (fun x hx => h x (List.mem_cons_of_mem _ hx))

lemma splitWords_eq_nil (text : String) (h : pyStrip text = "") :
    splitWords text = [] := by
  have hd : ((text.data.dropWhile Char.isWhitespace).reverse.dropWhile
      Char.isWhitespace).reverse = ([] : List Char) := congrArg String.data h
  have hall : ∀ c ∈ text.data, c.isWhitespace = true := by
    have h1 : ∀ x ∈ text.data.dropWhile Char.isWhitespace, x.isWhitespace = true := by
      intro x hx
      have h2 := List.dropWhile_eq_nil_iff.mp (List.reverse_eq_nil_iff.mp hd)
      exact h2 x (List.mem_reverse.mpr hx)
    intro c hc
    rw [← List.takeWhile_append_dropWhile Char.isWhitespace text.data] at hc
    rcases List.mem_append.mp hc with h3 | h3
    · exact List.mem_takeWhile_imp h3
    · exact h1 c h3
  unfold splitWords
  rw [splitWordsAux_all_ws text.data hall]
  rfl

lemma splitWordsAux_good (l : List Char) : ∀ (acc : List Char),
    (∀ c ∈ acc, c.isWhitespace = false) →
    ∀ w ∈ splitWordsAux l acc, w ≠ [] ∧ ∀ c ∈ w, c.isWhitespace = false := by
  induction l with
  | nil =>
    intro acc hacc w hw
    simp only [splitWordsAux] at hw
    split at hw
    · simp at hw
    · next hne =>
      simp only [List.mem_singleton] at hw
      subst hw
      refine ⟨fun hcon => hne (List.reverse_eq_nil_iff.mp hcon), ?_⟩
      intro c hc
      exact hacc c (List.mem_reverse.mp hc)
  | cons c cs ih =>
    intro acc hacc w hw
    simp only [splitWordsAux] at hw
    split at hw
    · split at hw
      · exact ih [] (by simp) w hw
      · next hne =>
        rcases List.mem_cons.mp hw with h1 | h1
        · subst h1
          exact ⟨fun hcon => hne (List.reverse_eq_nil_iff.mp hcon),
            fun d hd => hacc d (List.mem_reverse.mp hd)⟩
        · exact ih [] (by simp) w h1
    · next hws =>
      refine ih (c :: acc) ?_ w hw
      intro d hd
      rcases List.mem_cons.mp hd with h1 | h1
      · subst h1
        simpa using hws
      · exact hacc d h1

lemma splitWordsAux_append (w : List Char) : ∀ (rest acc : List Char),
    (∀ c ∈ w, c.isWhitespace = false) →
    splitWordsAux (w ++ rest) acc = splitWordsAux rest (w.reverse ++ acc) := by
  induction w with
  | nil =>
    intro rest acc _
    simp
  | cons c cs ih =>
    intro rest acc h
    have hc : c.isWhitespace = false := h c (List.mem_cons_self c cs)
    simp only [List.cons_append, splitWordsAux, hc, Bool.false_eq_true, if_false,
      List.append_eq]
    rw [ih rest (c :: acc) (fun d hd => h d (List.mem_cons_of_mem _ hd))]
    simp [List.reverse_cons, List.append_assoc]

lemma splitWordsAux_joinChars : ∀ (ws : List (List Char)),
    (∀ w ∈ ws, w ≠ [] ∧ ∀ c ∈ w, c.isWhitespace = false) →
    splitWordsAux (joinChars ws) [] = ws := by
  intro ws
  induction ws with
  | nil =>
    intro _
    simp [joinChars, splitWordsAux]
  | cons w ws ih =>
    intro h
    obtain ⟨hw1, hw2⟩ := h w (List.mem_cons_self w ws)
    cases ws with
    | nil =>
      have happ := splitWordsAux_append w [] [] hw2
      rw [List.append_nil, List.append_nil] at happ
      show splitWordsAux w [] = [w]
      rw [happ]
      simp [splitWordsAux, List.reverse_eq_nil_iff, hw1]
    | cons w2 ws2 =>
      show splitWordsAux (w ++ ' ' :: joinChars (w2 :: ws2)) [] = w :: w2 :: ws2
      rw [splitWordsAux_append w _ [] hw2, List.append_nil]
      have hsp : (' ' : Char).isWhitespace = true := rfl
      simp only [splitWordsAux, hsp, if_true, if_pos rfl]
      rw [if_neg (fun hcon => hw1 (List.reverse_eq_nil_iff.mp hcon))]
      rw [List.reverse_reverse]
      rw [ih (fun u hu => h u (List.mem_cons_of_mem _ hu))]

lemma splitWords_joinWords (ws : List String)
    (h : ∀ w ∈ ws, w.data ≠ [] ∧ ∀ c ∈ w.data, c.isWhitespace = false) :
    splitWords (joinWords ws) = ws := by
  unfold splitWords joinWords
  have h2 : ∀ w ∈ ws.map String.data, w ≠ [] ∧ ∀ c ∈ w, c.isWhitespace = false := by
    intro w hw
    rcases List.mem_map.mp hw with ⟨u, hu, rfl⟩
    exact h u hu
  rw [show (String.mk (joinChars (ws.map String.data))).data
      = joinChars (ws.map String.data) from rfl,
    splitWordsAux_joinChars _ h2, List.map_map]
  have hid : (fun l => String.mk l) ∘ String.data = fun (w : String) => w := rfl
  rw [hid]
  exact List.map_id ws

/-! ## Window lemmas -/

lemma windowAt_sublist (words : List String) (cs s : Nat) :
    (windowAt words cs s).Sublist words :=
  (List.drop_sublist _ _).trans (List.take_sublist _ _)

lemma splitWords_good (text : String) :
    ∀ w ∈ splitWords text, w.data ≠ [] ∧ ∀ c ∈ w.data, c.isWhitespace = false := by
  intro w hw
  unfold splitWords at hw
  rcases List.mem_map.mp hw with ⟨u, hu, rfl⟩
  exact splitWordsAux_good text.data [] (by simp) u hu

lemma windowAt_good (text : String) (cs s : Nat) :
    ∀ w ∈ windowAt (splitWords text) cs s,
      w.data ≠ [] ∧ ∀ c ∈ w.data, c.isWhitespace = false :=
  fun w hw => splitWords_good text w ((windowAt_sublist _ _ _).subset hw)

lemma splitWords_windowAt (text : String) (cs s : Nat) :
    splitWords (joinWords (windowAt (splitWords text) cs s))
      = windowAt (splitWords text) cs s :=
  splitWords_joinWords _ (windowAt_good text cs s)

lemma windowAt_length (words : List String) (cs s : Nat) :
    (windowAt words cs s).length = min (s + cs) words.length - s := by
  unfold windowAt
  rw [List.length_drop, List.length_take]
  omega

/-! ## The loop: bridge between `chunkLoopF` and `chunkRunN`, and its value -/

lemma chunkLoopF_eq_chunkRunN (words : List String) (cs ov : Nat) (hov : ov < cs) :
    ∀ (fuel s : Nat),
      chunkLoopF words cs ov fuel (s : Int) = chunkRunN words cs ov fuel s := by
  intro fuel
  induction fuel with
  | zero =>
    intro s
    simp only [chunkLoopF, chunkRunN, Nat.cast_lt]
  | succ fuel ih =>
    intro s
    simp only [chunkLoopF, chunkRunN, Nat.cast_lt]
    by_cases hs : s < words.length
    · rw [if_pos hs, if_pos hs]
      have hstep : (s : Int) + ((cs : Int) - (ov : Int)) = ((s + (cs - ov) : Nat) : Int) := by
        omega
      rw [hstep, ih (s + (cs - ov))]
      congr 1
      funext rest
      congr 2
      have ha : pyIdx words.length (s : Int) = s := by
        unfold pyIdx
        rw [if_neg (by omega)]
        omega
      have hb : pyIdx words.length (min ((s : Int) + (cs : Int)) (words.length : Int))
          = min (s + cs) words.length := by
        unfold pyIdx
        rw [if_neg (by omega)]
        omega
      unfold pySlice windowAt
      rw [ha, hb]
    · rw [if_neg hs, if_neg hs]

lemma chunkRunN_eq (words : List String) (cs ov : Nat) (hov : ov < cs) :
    ∀ (fuel start : Nat), words.length ≤ start + fuel →
      chunkRunN words cs ov fuel start =
        some ((List.range (iterCount (cs - ov) (words.length - start))).map
          (fun i => joinWords (windowAt words cs (start + i * (cs - ov))))) := by
  intro fuel
  induction fuel with
  | zero =>
    intro start h
    have h0 : ¬ start < words.length := by omega
    have h1 : words.length - start = 0 := by omega
    rw [h1, iterCount_zero _ (by omega)]
    simp [chunkRunN, h0]
  | succ fuel ih =>
    intro start h
    by_cases hs : start < words.length
    · simp only [chunkRunN, if_pos hs]
      rw [ih (start + (cs - ov)) (by omega), Option.map_some']
      congr 1
      rw [iterCount_succ (cs - ov) (words.length - start) (by omega) (by omega),
        show words.length - start - (cs - ov) = words.length - (start + (cs - ov)) by omega,
        List.range_succ_eq_map, List.map_cons, List.map_map]
      congr 1
      · simp
      · apply List.map_congr_left
        intro i _
        simp only [Function.comp_apply]
        congr 2
        rw [Nat.succ_mul]
        omega
    · have h1 : words.length - start = 0 := by omega
      rw [h1, iterCount_zero _ (by omega)]
      simp [chunkRunN, hs]

/-- Master lemma: for valid parameters (`overlap < chunk_size`) the source
chunker computes exactly the spec's window sequence, for every input text. -/
lemma chunk_text_eq (text : String) (cs ov : Nat) (hov : ov < cs) :
    chunk_text text cs ov = some (specWindows (splitWords text) cs ov) := by
  unfold chunk_text
  by_cases hs : pyStrip text = ""
  · rw [if_pos hs, splitWords_eq_nil text hs]
    unfold specWindows
    rw [show ([] : List String).length = 0 from rfl, iterCount_zero _ (by omega)]
    rfl
  · rw [if_neg hs]
    have h1 := chunkLoopF_eq_chunkRunN (splitWords text) cs ov hov (splitWords text).length 0
    rw [show ((0 : Nat) : Int) = (0 : Int) from rfl] at h1
    rw [h1, chunkRunN_eq (splitWords text) cs ov hov (splitWords text).length 0 (by omega)]
    unfold specWindows
    congr 1
    rw [Nat.sub_zero]
    apply List.map_congr_left
    intro i _
    rw [Nat.zero_add]

lemma specWindows_length (words : List String) (cs ov : Nat) :
    (specWindows words cs ov).length = iterCount (cs - ov) words.length := by
  unfold specWindows
  rw [List.length_map, List.length_range]

lemma specWindows_getElem (words : List String) (cs ov : Nat) (i : Nat)
    (h : i < (specWindows words cs ov).length) :
    (specWindows words cs ov)[i] = joinWords (windowAt words cs (i * (cs - ov))) := by
  unfold specWindows at h ⊢
  rw [List.getElem_map, List.getElem_range]

/-- Non-termination of the source loop: when `overlap ≥ chunk_size` and the
word list is non-empty, the loop guard `start < len(words)` stays true at
every iteration (the start only moves left or stays put), so the loop never
returns, whatever the fuel. -/
lemma chunkLoopF_none (words : List String) (cs ov : Nat)
    (hne : words ≠ []) (hov : cs ≤ ov) :
    ∀ (fuel : Nat) (start : Int), start ≤ 0 → chunkLoopF words cs ov fuel start = none := by
  have hlen : 0 < words.length := List.length_pos.mpr hne
  intro fuel
  induction fuel with
  | zero =>
    intro start h
    simp only [chunkLoopF]
    rw [if_pos (by omega)]
  | succ fuel ih =>
    intro start h
    simp only [chunkLoopF]
    rw [if_pos (by omega), ih (start + ((cs : Int) - (ov : Int))) (by omega)]
    rfl

/-- A window that fits inside the word list is `take chunk_size` of
`drop start`. -/
lemma windowAt_eq_of_le (words : List String) (cs s : Nat) (h : s + cs ≤ words.length) :
    windowAt words cs s = (words.drop s).take cs := by
  unfold windowAt
  rw [min_eq_left h, List.drop_take]
  congr 1
  omega

/-! ## Claim theorems -/

/-- Claim C1: for every text whose whitespace-split word list is non-empty
and every `chunk_size ≥ 1`, `0 ≤ overlap < chunk_size`, `chunk_text` returns
exactly the window sequence of the spec: chunk `i` is the single-space join
of `words[start_i : min(start_i + chunk_size, N)]` with
`start_0 = 0`, `start_{i+1} = start_i + (chunk_size - overlap)`, one window
for every `start_i < N`, in increasing order of `i` (`specWindows`, whose
index range is exactly the `i` with `start_i < N` by the second conjunct).
In particular `chunk_text "a b c d e" 3 1 = ["a b c", "c d e", "e"]`
(see the witness). -/
theorem chunk_text_matches_spec_windows (text : String) (cs ov : Nat)
    (hne : splitWords text ≠ []) (hcs : 1 ≤ cs) (hov : ov < cs) :
    chunk_text text cs ov = some (specWindows (splitWords text) cs ov) ∧
    ∀ i : Nat, i < (specWindows (splitWords text) cs ov).length ↔
      i * (cs - ov) < (splitWords text).length := by
  refine ⟨chunk_text_eq text cs ov hov, fun i => ?_⟩
  rw [specWindows_length, lt_iterCount_iff _ _ _ (by omega)]

theorem chunk_text_matches_spec_windows_witness :
    splitWords "a b c d e" ≠ [] ∧ 1 ≤ 3 ∧ 1 < 3 ∧
    chunk_text "a b c d e" 3 1 = some ["a b c", "c d e", "e"] :=
  ⟨by decide, by decide, by decide,
    (chunk_text_matches_spec_windows "a b c d e" 3 1 (by decide) (by decide)
      (by decide)).1.trans (by decide)⟩

/-- Claim C2 (code bug): the source contains no ConfigurationError check at
all.  On `overlap ≥ chunk_size` — the spec's own examples are
`(chunk_size, overlap) = (100, 100)` and `(100, 150)` — the loop never
terminates instead of failing fast: the run with the standard fuel returns
`none`, and indeed every fuel leaves the loop still unfinished. -/
theorem no_configuration_error_check :
    chunk_text "sample text" 100 100 = none ∧
    chunk_text "sample text" 100 150 = none ∧
    ∀ fuel : Nat,
      chunkLoopF (splitWords "sample text") 100 100 fuel 0 = none ∧
      chunkLoopF (splitWords "sample text") 100 150 fuel 0 = none := by
  refine ⟨by decide, by decide, fun fuel => ⟨?_, ?_⟩⟩
  · exact chunkLoopF_none _ _ _ (by decide) (by omega) fuel 0 le_rfl
  · exact chunkLoopF_none _ _ _ (by decide) (by omega) fuel 0 le_rfl

/-- Claim C3: for valid parameters the number of chunks is
`⌈N / (chunk_size - overlap)⌉` (`iterCount`), which is 0 when `N = 0`;
the final two conjuncts pin `iterCount` down as the exact ceiling for
`N > 0` (it is the least `q` with `N ≤ q * (chunk_size - overlap)`). -/
theorem chunk_count (text : String) (cs ov : Nat) (hcs : 1 ≤ cs) (hov : ov < cs) :
    (chunk_text text cs ov).map List.length
        = some (iterCount (cs - ov) (splitWords text).length) ∧
    ((splitWords text).length = 0 → iterCount (cs - ov) (splitWords text).length = 0) ∧
    (0 < (splitWords text).length →
      (splitWords text).length
          ≤ iterCount (cs - ov) (splitWords text).length * (cs - ov) ∧
      (iterCount (cs - ov) (splitWords text).length - 1) * (cs - ov)
          < (splitWords text).length) := by
  refine ⟨?_, fun h0 => ?_, fun hpos =>
    ⟨iterCount_mul_ge _ _ (by omega), iterCount_pred_mul_lt _ _ (by omega) hpos⟩⟩
  · rw [chunk_text_eq text cs ov hov, Option.map_some', specWindows_length]
  · rw [h0, iterCount_zero _ (by omega)]

theorem chunk_count_witness :
    1 ≤ 3 ∧ 1 < 3 ∧ (chunk_text "a b c d e" 3 1).map List.length = some 3 :=
  ⟨by decide, by decide,
    (chunk_count "a b c d e" 3 1 (by decide) (by decide)).1.trans (by decide)⟩

/-- Claim C6: a text whose word list is empty (empty or whitespace-only
text) yields the empty chunk sequence, with no error, for any parameters. -/
theorem chunk_text_empty_words (text : String) (cs ov : Nat)
    (h : splitWords text = []) : chunk_text text cs ov = some [] := by
  unfold chunk_text
  by_cases hs : pyStrip text = ""
  · rw [if_pos hs]
  · rw [if_neg hs, h]
    rfl

theorem chunk_text_empty_words_witness :
    splitWords "" = [] ∧ splitWords "   " = [] ∧
    chunk_text "" 650 130 = some [] ∧ chunk_text "   " 650 130 = some [] :=
  ⟨by decide, by decide, chunk_text_empty_words "" 650 130 (by decide),
    chunk_text_empty_words "   " 650 130 (by decide)⟩

/-- Claim C9: with a non-empty word list and `overlap ≥ chunk_size` the loop
of `chunk_text` does not terminate: at every iteration the start index fails
to advance past the word count, so no fuel suffices (`none` for all fuel),
and `chunk_text` itself (run with its standard fuel) returns `none`. -/
theorem chunk_text_diverges (text : String) (cs ov : Nat)
    (hne : splitWords text ≠ []) (hov : cs ≤ ov) :
    chunk_text text cs ov = none ∧
    ∀ fuel : Nat, chunkLoopF (splitWords text) cs ov fuel 0 = none := by
  have hstrip : ¬ pyStrip text = "" := fun hs => hne (splitWords_eq_nil text hs)
  refine ⟨?_, fun fuel => chunkLoopF_none _ cs ov hne hov fuel 0 le_rfl⟩
  unfold chunk_text
  rw [if_neg hstrip]
  exact chunkLoopF_none _ cs ov hne hov _ 0 le_rfl

theorem chunk_text_diverges_witness :
    splitWords "a" ≠ [] ∧ 1 ≤ 1 ∧ chunk_text "a" 1 1 = none ∧
    chunkLoopF (splitWords "a") 1 1 7 0 = none :=
  ⟨by decide, le_rfl, (chunk_text_diverges "a" 1 1 (by decide) le_rfl).1,
    (chunk_text_diverges "a" 1 1 (by decide) le_rfl).2 7⟩

/-- Claim C10: for valid parameters every returned chunk is a non-empty
string containing at least 1 and at most `chunk_size` whitespace-delimited
words. -/
theorem chunks_nonempty_bounded (text : String) (cs ov : Nat)
    (hcs : 1 ≤ cs) (hov : ov < cs) (chunks : List String)
    (hck : chunk_text text cs ov = some chunks) :
    ∀ c ∈ chunks, c ≠ "" ∧ 1 ≤ (splitWords c).length ∧ (splitWords c).length ≤ cs := by
  have heq : chunks = specWindows (splitWords text) cs ov := by
    have h := chunk_text_eq text cs ov hov
    rw [hck] at h
    exact Option.some.inj h
  subst heq
  intro c hc
  unfold specWindows at hc
  rcases List.mem_map.mp hc with ⟨i, hi, rfl⟩
  have hstart : i * (cs - ov) < (splitWords text).length :=
    (lt_iterCount_iff _ _ _ (by omega)).mp (List.mem_range.mp hi)
  have hws := splitWords_windowAt text cs (i * (cs - ov))
  have hlen := windowAt_length (splitWords text) cs (i * (cs - ov))
  refine ⟨?_, ?_, ?_⟩
  · intro hcon
    rw [hcon] at hws
    have h0 : (windowAt (splitWords text) cs (i * (cs - ov))).length = 0 := by
      rw [← hws]
      rfl
    omega
  · rw [hws, hlen]
    omega
  · rw [hws, hlen]
    omega

theorem chunks_nonempty_bounded_witness :
    1 ≤ 3 ∧ 1 < 3 ∧ chunk_text "a b c d e" 3 1 = some ["a b c", "c d e", "e"] ∧
    ("e" ≠ "" ∧ 1 ≤ (splitWords "e").length ∧ (splitWords "e").length ≤ 3) :=
  ⟨by decide, by decide, by decide,
    chunks_nonempty_bounded "a b c d e" 3 1 (by decide) (by decide)
      ["a b c", "c d e", "e"] (by decide) "e" (by decide)⟩

/-- Claim C4: for valid parameters, if two consecutive chunks are both
full-length windows (exactly `chunk_size` words each), then the last
`overlap` words of the first equal, position by position, the first
`overlap` words of the second. -/
theorem overlap_exact (text : String) (cs ov : Nat) (hcs : 1 ≤ cs) (hov : ov < cs)
    (chunks : List String) (hck : chunk_text text cs ov = some chunks)
    (i : Nat) (hi : i + 1 < chunks.length)
    (hfull1 : (splitWords chunks[i]).length = cs)
    (hfull2 : (splitWords chunks[i + 1]).length = cs) :
    (splitWords chunks[i]).drop (cs - ov) = (splitWords chunks[i + 1]).take ov := by
  have heq : chunks = specWindows (splitWords text) cs ov := by
    have h := chunk_text_eq text cs ov hov
    rw [hck] at h
    exact Option.some.inj h
  subst heq
  rw [specWindows_getElem, splitWords_windowAt] at hfull1 hfull2 ⊢
  rw [specWindows_getElem, splitWords_windowAt]
  rw [windowAt_length] at hfull1 hfull2
  have h1 : i * (cs - ov) + cs ≤ (splitWords text).length := by omega
  have h2 : (i + 1) * (cs - ov) + cs ≤ (splitWords text).length := by omega
  rw [windowAt_eq_of_le _ _ _ h1, windowAt_eq_of_le _ _ _ h2,
    List.drop_take, List.drop_drop, List.take_take,
    show cs - (cs - ov) = ov by omega, show ov ⊓ cs = ov by omega,
    show (i + 1) * (cs - ov) = i * (cs - ov) + (cs - ov) by rw [Nat.succ_mul]]

theorem overlap_exact_witness :
    1 ≤ 3 ∧ 1 < 3 ∧ chunk_text "a b c d e" 3 1 = some ["a b c", "c d e", "e"] ∧
    0 + 1 < 3 ∧ (splitWords "a b c").length = 3 ∧ (splitWords "c d e").length = 3 ∧
    (splitWords "a b c").drop (3 - 1) = (splitWords "c d e").take 1 :=
  ⟨by decide, by decide, by decide, by decide, by decide, by decide,
    overlap_exact "a b c d e" 3 1 (by decide) (by decide)
      ["a b c", "c d e", "e"] (by decide) 0 (by decide) (by decide) (by decide)⟩

/-- Claim C5: coverage — every chunk's word list keeps the original relative
order (it is a sublist of the text's word sequence), and every word of the
text, at every position, occurs in at least one chunk. -/
theorem coverage (text : String) (cs ov : Nat) (hcs : 1 ≤ cs) (hov : ov < cs)
    (hne : splitWords text ≠ []) (chunks : List String)
    (hck : chunk_text text cs ov = some chunks) :
    (∀ c ∈ chunks, (splitWords c).Sublist (splitWords text)) ∧
    ∀ j : Nat, ∀ hj : j < (splitWords text).length,
      ∃ c ∈ chunks, (splitWords text)[j] ∈ splitWords c := by
  have heq : chunks = specWindows (splitWords text) cs ov := by
    have h := chunk_text_eq text cs ov hov
    rw [hck] at h
    exact Option.some.inj h
  subst heq
  constructor
  · intro c hc
    unfold specWindows at hc
    rcases List.mem_map.mp hc with ⟨i, _, rfl⟩
    rw [splitWords_windowAt]
    exact windowAt_sublist _ _ _
  · intro j hj
    have hstep : 1 ≤ cs - ov := by omega
    have hdm := Nat.div_add_mod j (cs - ov)
    have hmod : j % (cs - ov) < cs - ov := Nat.mod_lt j (by omega)
    have hcomm : (j / (cs - ov)) * (cs - ov) = (cs - ov) * (j / (cs - ov)) :=
      Nat.mul_comm _ _
    have hcount : j / (cs - ov) < iterCount (cs - ov) (splitWords text).length :=
      (lt_iterCount_iff _ _ _ hstep).mpr (by omega)
    have hilen : j / (cs - ov) < (specWindows (splitWords text) cs ov).length := by
      rw [specWindows_length]
      exact hcount
    refine ⟨(specWindows (splitWords text) cs ov)[j / (cs - ov)],
      List.getElem_mem hilen, ?_⟩
    rw [specWindows_getElem, splitWords_windowAt]
    have hk : j - (j / (cs - ov)) * (cs - ov)
        < (windowAt (splitWords text) cs ((j / (cs - ov)) * (cs - ov))).length := by
      rw [windowAt_length]
      omega
    have hidx : (j / (cs - ov)) * (cs - ov) + (j - (j / (cs - ov)) * (cs - ov)) = j := by
      omega
    have hval : (windowAt (splitWords text) cs
          ((j / (cs - ov)) * (cs - ov)))[j - (j / (cs - ov)) * (cs - ov)]
        = (splitWords text)[j] := by
      unfold windowAt
      rw [List.getElem_drop, List.getElem_take]
      simp only [hidx]
    rw [← hval]
    exact List.getElem_mem hk

theorem coverage_witness :
    1 ≤ 3 ∧ 1 < 3 ∧ splitWords "a b c d e" ≠ [] ∧
    chunk_text "a b c d e" 3 1 = some ["a b c", "c d e", "e"] ∧
    (∃ c ∈ ["a b c", "c d e", "e"], "e" ∈ splitWords c) :=
  ⟨by decide, by decide, by decide, by decide,
    (coverage "a b c d e" 3 1 (by decide) (by decide) (by decide)
      ["a b c", "c d e", "e"] (by decide)).2 4 (by decide)⟩

/-- Claim C8 as stated is false on the code: with 6 words, `chunk_size = 5`
and `overlap = 4` the source produces six chunks whose word counts are
5, 5, 4, 3, 2, 1 — the third chunk (`"c d e f"`) has fewer than `chunk_size`
words although it is not the last. -/
theorem only_last_short_counterexample :
    chunk_text "a b c d e f" 5 4
        = some ["a b c d e", "b c d e f", "c d e f", "d e f", "e f", "f"] ∧
    ¬ (∀ chunks : List String, chunk_text "a b c d e f" 5 4 = some chunks →
        ∀ i : Nat, i + 1 < chunks.length → (splitWords (chunks.getD i "")).length = 5) := by
  refine ⟨by decide, fun hcl => ?_⟩
  have h := hcl ["a b c d e", "b c d e f", "c d e f", "d e f", "e f", "f"]
    (by decide) 2 (by decide)
  exact absurd h (by decide)

/-- Claim C8, amended: for valid parameters chunk `i` contains exactly
`min(chunk_size, N - i*(chunk_size - overlap))` words; consequently every
chunk other than the last contains at least `chunk_size - overlap` words
(exactly `chunk_size` when `overlap = 0`), but a non-final chunk may still
contain fewer than `chunk_size` words when `overlap > 0`. -/
theorem chunk_word_counts (text : String) (cs ov : Nat) (hcs : 1 ≤ cs) (hov : ov < cs)
    (chunks : List String) (hck : chunk_text text cs ov = some chunks)
    (i : Nat) (hi : i < chunks.length) :
    (splitWords chunks[i]).length
        = min cs ((splitWords text).length - i * (cs - ov)) ∧
    (i + 1 < chunks.length → cs - ov ≤ (splitWords chunks[i]).length) ∧
    (ov = 0 → i + 1 < chunks.length → (splitWords chunks[i]).length = cs) := by
  have heq : chunks = specWindows (splitWords text) cs ov := by
    have h := chunk_text_eq text cs ov hov
    rw [hck] at h
    exact Option.some.inj h
  subst heq
  rw [specWindows_length] at hi
  have hstart : i * (cs - ov) < (splitWords text).length :=
    (lt_iterCount_iff _ _ _ (by omega)).mp hi
  have hsucc : (i + 1) * (cs - ov) = i * (cs - ov) + (cs - ov) := by
    rw [Nat.succ_mul]
  rw [specWindows_getElem, splitWords_windowAt, windowAt_length, specWindows_length,
    lt_iterCount_iff _ _ _ (by omega)]
  refine ⟨by omega, fun hlast => by omega, fun hov0 hlast => by omega⟩

theorem chunk_word_counts_witness :
    1 ≤ 5 ∧ 4 < 5 ∧
    chunk_text "a b c d e f" 5 4
        = some ["a b c d e", "b c d e f", "c d e f", "d e f", "e f", "f"] ∧
    2 < 6 ∧
    ((splitWords "c d e f").length = min 5 ((splitWords "a b c d e f").length - 2 * (5 - 4)) ∧
      (2 + 1 < 6 → 5 - 4 ≤ (splitWords "c d e f").length) ∧
      (4 = 0 → 2 + 1 < 6 → (splitWords "c d e f").length = 5)) :=
  ⟨by decide, by decide, by decide, by decide,
    chunk_word_counts "a b c d e f" 5 4 (by decide) (by decide)
      ["a b c d e", "b c d e f", "c d e f", "d e f", "e f", "f"] (by decide) 2 (by decide)⟩

/-- Claim C7: the record builder emits one record per chunk in input order;
the record at 1-based position `k + 1` has the zero-padded id, the chunk
text, `chunk_index = k + 1`, `total_chunks` equal to the list length, and
`chunk_size_words_approx` equal to the chunk's whitespace word count; the
`chunk_index` values are exactly `1..total_chunks` in order (no gaps or
repeats). -/
theorem buildRecords_spec (chunks : List String) (sn ft : String) (k : Nat)
    (hk : k < chunks.length) :
    (buildRecords chunks sn ft).length = chunks.length ∧
    (buildRecords chunks sn ft).map (fun r => r.metadata.chunk_index)
        = List.range' 1 chunks.length ∧
    (buildRecords chunks sn ft)[k]? =
      some { id := "chunk_" ++ sn ++ "_" ++ zeroPad4 (k + 1)
             text_content := chunks[k]
             metadata :=
               { source := sn
                 file_type := ft
                 chunk_index := k + 1
                 total_chunks := chunks.length
                 chunk_size_words_approx := (splitWords chunks[k]).length } } := by
  refine ⟨?_, ?_, ?_⟩
  · unfold buildRecords
    rw [List.length_map, List.enum_length]
  · unfold buildRecords
    rw [List.map_map, List.range'_eq_map_range, ← List.enum_map_fst chunks, List.map_map]
    apply List.map_congr_left
    intro p _
    simp only [Function.comp_apply]
    omega
  · unfold buildRecords
    rw [List.getElem?_map, List.getElem?_enum, List.getElem?_eq_getElem hk]
    rfl

theorem buildRecords_spec_witness :
    0 < (["x"] : List String).length ∧
    (buildRecords ["x"] "doc.txt" ".txt").length = 1 ∧
    (buildRecords ["x"] "doc.txt" ".txt").map (fun r => r.metadata.chunk_index)
        = List.range' 1 1 ∧
    (buildRecords ["x"] "doc.txt" ".txt")[0]? =
      some { id := "chunk_doc.txt_0001"
             text_content := "x"
             metadata :=
               { source := "doc.txt"
                 file_type := ".txt"
                 chunk_index := 1
                 total_chunks := 1
                 chunk_size_words_approx := 1 } } := by
  have h := buildRecords_spec ["x"] "doc.txt" ".txt" 0 (by decide)
  exact ⟨by decide, h.1, h.2.1, h.2.2.trans (by decide)⟩
